import Mathlib

/-!
Verification of the ciphersuite.info directory core logic.

This file gives a shallow embedding of the two pre-save enrichment routines
of `src/directory/models.py` (`complete_cs_instance`, `complete_rfc_instance`
with its inner `get_year`, `get_title`, `get_status`) and the status-label
table of `src/directory/views.py` (`detail_rfc`), together with theorems
settling the specification claims about them.

Strings are modelled as `List Char`.  The Python string primitives used by
the source (`str.replace`, `str.partition`, `str.rpartition`, `str.strip`)
are embedded below with their exact Python semantics:
  * `partition(sep)` splits at the FIRST occurrence of `sep` and returns
    `(s, '', '')` when `sep` does not occur;
  * `rpartition(sep)` splits at the LAST occurrence and returns
    `('', '', s)` when `sep` does not occur;
  * `strip()` removes leading and trailing whitespace.
-/

/-- Python `str.replace("_", " ")` applied to one character. -/
def u2s (c : Char) : Char := if c = '_' then ' ' else c

/-- The `name.replace("_", " ")` normalization from `complete_cs_instance`. -/
def normalizeName (s : List Char) : List Char := s.map u2s

/-- Whether `sep` occurs at the head of `s` (boolean prefix test). -/
def isPre : List Char → List Char → Bool
  | [], _ => true
  | _ :: _, [] => false
  | a :: as, b :: bs => if a = b then isPre as bs else false

/-- Whether `sep` occurs somewhere in `s` (boolean substring test, Python `in`). -/
def occursIn (sep : List Char) : List Char → Bool
  | [] => isPre sep []
  | c :: rest => isPre sep (c :: rest) || occursIn sep rest

/-- Split at the first occurrence of `sep`: `some (before, after)`, or `none`
when `sep` does not occur. -/
def findFirst (sep : List Char) : List Char → Option (List Char × List Char)
  | [] => if isPre sep [] then some ([], []) else none
  | c :: rest =>
    if isPre sep (c :: rest) then some ([], (c :: rest).drop sep.length)
    else
      match findFirst sep rest with
      | some (a, b) => some (c :: a, b)
      | none => none

/-- Split at the last occurrence of `sep`: `some (before, after)`, or `none`
when `sep` does not occur. -/
def findLast (sep : List Char) : List Char → Option (List Char × List Char)
  | [] => if isPre sep [] then some ([], []) else none
  | c :: rest =>
    match findLast sep rest with
    | some (a, b) => some (c :: a, b)
    | none =>
      if isPre sep (c :: rest) then some ([], (c :: rest).drop sep.length)
      else none

/-- Python `s.partition(sep)`. -/
def pyPartition (sep s : List Char) : List Char × List Char × List Char :=
  match findFirst sep s with
  | some (a, b) => (a, sep, b)
  | none => (s, [], [])

/-- Python `s.rpartition(sep)`. -/
def pyRpartition (sep s : List Char) : List Char × List Char × List Char :=
  match findLast sep s with
  | some (a, b) => (a, sep, b)
  | none => ([], [], s)

/-- Python whitespace characters (the ASCII set stripped by `str.strip()`). -/
def pyWs (c : Char) : Bool :=
  c = ' ' || c = '\t' || c = '\n' || c = '\r' || c = '\x0b' || c = '\x0c'

/-- Python `s.strip()`. -/
def pyStrip (s : List Char) : List Char :=
  ((s.dropWhile pyWs).reverse.dropWhile pyWs).reverse

/-- The literal separator `"WITH"` used by `complete_cs_instance`. -/
def withTok : List Char := "WITH".toList

/-- The tokenization performed by `complete_cs_instance`
(`src/directory/models.py` lines 252-254):
`(prt,_,rst) = name.replace("_"," ").partition(" ")`;
`(kex,_,rst) = rst.partition("WITH")`;
`(enc,_,hsh) = rst.rpartition(" ")`; each token finally `.strip()`ed. -/
def decompose_name (name : List Char) :
    List Char × List Char × List Char × List Char :=
  let n := normalizeName name
  let p1 := pyPartition [' '] n
  let p2 := pyPartition withTok p1.2.2
  let p3 := pyRpartition [' '] p2.2.2
  (pyStrip p1.1, pyStrip p2.1, pyStrip p3.1, pyStrip p3.2.2)

/-- A Technology Registry row (the abstract `Technology` model:
`short_name` primary key, `long_name` initially empty). -/
structure Technology where
  short_name : List Char
  long_name : List Char
  deriving DecidableEq

/-- Django `objects.get_or_create(short_name=key)`: return the existing row
with that key, or append a fresh row with empty `long_name`. -/
def getOrCreate (entries : List Technology) (key : List Char) :
    Technology × List Technology :=
  match entries.find? (fun t => decide (t.short_name = key)) with
  | some t => (t, entries)
  | none => (⟨key, []⟩, entries ++ [⟨key, []⟩])

/-- The four Technology Registry tables (`ProtocolVersion`, `KexAlgorithm`,
`EncAlgorithm`, `HashAlgorithm`). -/
structure RegistryState where
  protocolVersions : List Technology
  kexAlgorithms : List Technology
  encAlgorithms : List Technology
  hashAlgorithms : List Technology
  deriving DecidableEq

/-- A `CipherSuite` row after the pre-save hook: name plus the four
foreign-key references derived from it. -/
structure CsInstance where
  name : List Char
  protocol_version : Technology
  kex_algorithm : Technology
  enc_algorithm : Technology
  hash_algorithm : Technology
  deriving DecidableEq

/-- The `complete_cs_instance` pre-save receiver
(`src/directory/models.py` lines 249-267): decompose the name and
get-or-create the four registry rows, assigning them to the instance. -/
def complete_cs_instance (name : List Char) (st : RegistryState) :
    CsInstance × RegistryState :=
  let toks := decompose_name name
  let pv := getOrCreate st.protocolVersions toks.1
  let kx := getOrCreate st.kexAlgorithms toks.2.1
  let en := getOrCreate st.encAlgorithms toks.2.2.1
  let hs := getOrCreate st.hashAlgorithms toks.2.2.2
  (⟨name, pv.1, kx.1, en.1, hs.1⟩, ⟨pv.2, kx.2, en.2, hs.2⟩)

/-- The empty Technology Registry. -/
def emptyRegistry : RegistryState := ⟨[], [], [], []⟩

/-- The worked example name from the specification. -/
def exampleName : List Char := "TLS_ECDHE_RSA WITH AES_128_GCM SHA256".toList

/-- C1: decomposing `"TLS_ECDHE_RSA WITH AES_128_GCM SHA256"` yields exactly
the tokens protocol `"TLS"`, kex `"ECDHE RSA"`, enc `"AES 128 GCM"`,
hash `"SHA256"`, and these four stripped tokens become the `short_name`
keys assigned to the cipher suite's four foreign keys. -/
theorem cs_decompose_example_correct :
    decompose_name exampleName =
      ("TLS".toList, "ECDHE RSA".toList, "AES 128 GCM".toList,
        "SHA256".toList) ∧
    complete_cs_instance exampleName emptyRegistry =
      (⟨exampleName, ⟨"TLS".toList, []⟩, ⟨"ECDHE RSA".toList, []⟩,
          ⟨"AES 128 GCM".toList, []⟩, ⟨"SHA256".toList, []⟩⟩,
        ⟨[⟨"TLS".toList, []⟩], [⟨"ECDHE RSA".toList, []⟩],
          [⟨"AES 128 GCM".toList, []⟩], [⟨"SHA256".toList, []⟩]⟩) := by
  constructor <;> decide

/-- The `" ".join(xs)` concatenation used by the extraction helpers. -/
def joinSpace (xs : List (List Char)) : List Char := List.intercalate [' '] xs

/-- The fetched RFC page, reduced to the HTTP status and the three xpath
text-node selections that `complete_rfc_instance` reads:
`//span[@class="h1"]/text()`, the docinfo spans, and `//pre[1]/text()`. -/
structure RfcPage where
  status_code : Nat
  h1_texts : List (List Char)
  docinfo_texts : List (List Char)
  pre1_texts : List (List Char)
  deriving DecidableEq

/-- Function `get_title` (`src/directory/models.py` lines 206-209): join the text of
the `h1` spans. -/
def get_title (page : RfcPage) : List Char := joinSpace page.h1_texts

/-- The status match chain of `get_status` (lines 218-234), over the joined
docinfo text: first literal phrase match wins, fallback `"UND"`. -/
def status_from_docinfo (d : List Char) : String :=
  if occursIn ("INTERNET STANDARD".toList) d then "IST"
  else if occursIn ("PROPOSED STANDARD".toList) d then "PST"
  else if occursIn ("DRAFT STANDARD".toList) d then "DST"
  else if occursIn ("BEST CURRENT PRACTISE".toList) d then "BCP"
  else if occursIn ("INFORMATIONAL".toList) d then "INF"
  else if occursIn ("EXPERIMENTAL".toList) d then "EXP"
  else if occursIn ("HISTORIC".toList) d then "HST"
  else "UND"

/-- Function `get_status` (lines 211-234): join the docinfo span texts and match. -/
def get_status (page : RfcPage) : String :=
  status_from_docinfo (joinSpace page.docinfo_texts)

/-- The twelve month names of `get_year`'s `month_list`. -/
def monthList : List (List Char) :=
  ["January".toList, "February".toList, "March".toList, "April".toList,
   "May".toList, "June".toList, "July".toList, "August".toList,
   "September".toList, "October".toList, "November".toList,
   "December".toList]

/-- Python regex word character (`\w`, ASCII). -/
def wordChar (c : Char) : Bool := c.isAlphanum || c = '_'

/-- A `\b` word boundary holds before a word character at this position:
the previous character (if any) is not a word character. -/
def boundaryBefore : Option Char → Bool
  | none => true
  | some c => !wordChar c

/-- Numeric value of a decimal digit character. -/
def digitVal (c : Char) : Nat := c.toNat - 48

/-- The `int(...)` value of the four captured digit characters. -/
def yearFrom (d1 d2 d3 d4 : Char) : Nat :=
  digitVal d1 * 1000 + digitVal d2 * 100 + digitVal d3 * 10 + digitVal d4

/-- One attempted match of `get_year`'s regex
`\b(?:January|...|December)\b (\d{4})` at a fixed position: a month name
(the alternatives are pairwise non-prefix, so at most one applies) with a
word boundary before it, then a literal space, then four digits.  The `\b`
after the month is implied by the following literal space.  Note the regex
puts no word boundary after the four digits. -/
def yearAt (prev : Option Char) (s : List Char) : Option Nat :=
  monthList.findSome? fun m =>
    if isPre m s && boundaryBefore prev then
      match s.drop m.length with
      | ' ' :: d1 :: d2 :: d3 :: d4 :: _ =>
        if d1.isDigit && d2.isDigit && d3.isDigit && d4.isDigit then
          some (yearFrom d1 d2 d3 d4)
        else none
      | _ => none
    else none

/-- Model of `re.search`: try the pattern at each position left to right, first
success wins; `prev` is the character before the current position. -/
def yearSearch : Option Char → List Char → Option Nat
  | _, [] => none
  | prev, c :: rest =>
    match yearAt prev (c :: rest) with
    | some y => some y
    | none => yearSearch (some c) rest

/-- Function `get_year` (lines 193-204): join the first `pre` block's text nodes and
search for the month/year pattern; `none` models the `AttributeError`
raised by `match.group(1)` when `re.search` finds no match. -/
def get_year (page : RfcPage) : Option Nat :=
  yearSearch none (joinSpace page.pre1_texts)

/-- Decimal digits of an RFC number, for the URL template. -/
def natDigits (n : Nat) : List Char := Nat.toDigits 10 n

/-- The URL template `"https://tools.ietf.org/html/rfc"` plus the number (line 236). -/
def rfcUrl (n : Nat) : List Char :=
  "https://tools.ietf.org/html/rfc".toList ++ natDigits n

/-- An `Rfc` row's scalar fields. -/
structure RfcInstance where
  number : Nat
  url : List Char
  title : List Char
  status : String
  release_year : Nat
  deriving DecidableEq

/-- The errors `complete_rfc_instance` can raise: the explicit
`Exception('RFC not found')` on a non-200 response, and the
`AttributeError` from `get_year` when the month/year pattern is absent. -/
inductive FetchError where
  | rfcNotFound
  | yearPatternMissing
  deriving DecidableEq

/-- The `complete_rfc_instance` pre-save receiver (lines 188-246): on a 200
response assign `url`, `title`, `status` and then `release_year` (whose
extraction may raise after the first three assignments); on any other
status raise `'RFC not found'` before touching the instance.  The returned
instance reflects exactly the assignments performed before any raise. -/
def complete_rfc_instance (page : RfcPage) (inst : RfcInstance) :
    RfcInstance × Option FetchError :=
  if page.status_code = 200 then
    let inst1 := { inst with
      url := rfcUrl inst.number
      title := get_title page
      status := get_status page }
    match get_year page with
    | some y => ({ inst1 with release_year := y }, none)
    | none => (inst1, some FetchError.yearPatternMissing)
  else
    (inst, some FetchError.rfcNotFound)

/-- Upsert an `Rfc` row by its `number` primary key. -/
def upsertRfc : List RfcInstance → RfcInstance → List RfcInstance
  | [], inst => [inst]
  | r :: rest, inst =>
    if r.number = inst.number then inst :: rest else r :: upsertRfc rest inst

/-- Modelled from the spec: the persistence step around the pre-save hook is
not under `src/` (it is the web framework's save machinery); per the spec,
an error raised by the enrichment routine aborts the save, so the table is
written only when `complete_rfc_instance` finishes without raising. -/
def save_rfc (page : RfcPage) (db : List RfcInstance) (inst : RfcInstance) :
    List RfcInstance × Option FetchError :=
  match complete_rfc_instance page inst with
  | (inst2, none) => (upsertRfc db inst2, none)
  | (_, some e) => (db, some e)

/-- The `all_rfc_status_codes` label table from `detail_rfc`
(`src/directory/views.py` lines 96-106). -/
def all_rfc_status_codes : List (String × String) :=
  [("BCP", "Best Current Practise"), ("DST", "Draft Standard"),
   ("EXP", "Experimental"), ("HST", "Historic"), ("INF", "Informational"),
   ("IST", "Internet Standard"), ("PST", "Proposed Standard"),
   ("UND", "Undefined")]

/-- The view's dictionary lookup `all_rfc_status_codes[rfc.status]`. -/
def rfc_status_label (s : String) : Option String :=
  (all_rfc_status_codes.find? fun pr => pr.1 == s).map Prod.snd

/-- C4: a non-success HTTP response makes the save fail: the error is
raised before persistence, the stored table is unchanged (no row written,
no partial or stale metadata) and the failure is reported to the caller. -/
theorem rfc_fetch_failure_aborts_save
    (page : RfcPage) (db : List RfcInstance) (inst : RfcInstance)
    (h : page.status_code ≠ 200) :
    save_rfc page db inst = (db, some FetchError.rfcNotFound) := by
  simp [save_rfc, complete_rfc_instance, h]

/-- Witness for C4 at a concrete 404 page. -/
theorem rfc_fetch_failure_aborts_save_witness :
    save_rfc ⟨404, [], [], []⟩ [] ⟨5246, [], [], "UND", 0⟩ =
      ([], some FetchError.rfcNotFound) :=
  rfc_fetch_failure_aborts_save ⟨404, [], [], []⟩ [] ⟨5246, [], [], "UND", 0⟩
    (by decide)

/-- C10: on a non-200 response the routine raises before performing any
assignment: the in-memory `Rfc` instance (its `url`, `title`, `status` and
`release_year` fields) is returned exactly as it was. -/
theorem rfc_fetch_failure_preserves_instance
    (page : RfcPage) (inst : RfcInstance) (h : page.status_code ≠ 200) :
    complete_rfc_instance page inst = (inst, some FetchError.rfcNotFound) := by
  simp [complete_rfc_instance, h]

/-- Witness for C10 at a concrete 500 page. -/
theorem rfc_fetch_failure_preserves_instance_witness :
    complete_rfc_instance ⟨500, [], [], []⟩
        ⟨42, "u".toList, "t".toList, "IST", 1999⟩ =
      (⟨42, "u".toList, "t".toList, "IST", 1999⟩,
        some FetchError.rfcNotFound) :=
  rfc_fetch_failure_preserves_instance ⟨500, [], [], []⟩
    ⟨42, "u".toList, "t".toList, "IST", 1999⟩ (by decide)

/-- C7: when the fetched page's first preformatted block contains no
month/year pattern, year extraction itself fails (there is no fallback
year), the error propagates, and the save is aborted with no row written. -/
theorem rfc_missing_year_aborts_save
    (page : RfcPage) (db : List RfcInstance) (inst : RfcInstance)
    (h200 : page.status_code = 200) (hyear : get_year page = none) :
    save_rfc page db inst = (db, some FetchError.yearPatternMissing) := by
  simp [save_rfc, complete_rfc_instance, h200, hyear]

/-- Witness for C7 at a concrete 200 page whose pre block lacks the
month/year pattern. -/
theorem rfc_missing_year_aborts_save_witness :
    save_rfc ⟨200, [], [], ["Request for Comments".toList]⟩ []
        ⟨9999, [], [], "UND", 0⟩ =
      ([], some FetchError.yearPatternMissing) :=
  rfc_missing_year_aborts_save ⟨200, [], [], ["Request for Comments".toList]⟩
    [] ⟨9999, [], [], "UND", 0⟩ (by decide) (by decide)

/-- The claimed priority table for status extraction: literal phrase and
resulting code, in the fixed order stated by the specification. -/
def statusPhraseTable : List (List Char × String) :=
  [("INTERNET STANDARD".toList, "IST"), ("PROPOSED STANDARD".toList, "PST"),
   ("DRAFT STANDARD".toList, "DST"),
   ("BEST CURRENT PRACTISE".toList, "BCP"),
   ("INFORMATIONAL".toList, "INF"), ("EXPERIMENTAL".toList, "EXP"),
   ("HISTORIC".toList, "HST")]

/-- The specification's description of status extraction: scan the priority
table, first phrase occurring in the docinfo text wins, fallback `"UND"`
(and that fallback is a result, not an error). -/
def statusSpecFirstMatch (d : List Char) : String :=
  match statusPhraseTable.find? (fun pr => occursIn pr.1 d) with
  | some pr => pr.2
  | none => "UND"

/-- C5: over any concatenated status-annotation text, the source's status
match chain agrees with the specified fixed-priority first-match rule with
`"UND"` fallback. -/
theorem rfc_status_first_match_spec (d : List Char) :
    status_from_docinfo d = statusSpecFirstMatch d := by
  unfold status_from_docinfo statusSpecFirstMatch statusPhraseTable
  split_ifs <;> simp_all [List.find?]

/-- C9: status extraction always returns one of the eight codes, and the
RFC detail view's label table has an entry for each, so the view's label
lookup on an enriched instance's status never fails. -/
theorem rfc_status_label_total (d : List Char) :
    status_from_docinfo d ∈
        (["IST", "PST", "DST", "BCP", "INF", "EXP", "HST", "UND"] :
          List String) ∧
    (rfc_status_label (status_from_docinfo d)).isSome = true := by
  unfold status_from_docinfo
  split_ifs <;> exact ⟨by decide, by decide⟩

/-- If a `find?` over a list fails, appending more entries makes the search
continue in the appended part. -/
theorem find?_append_of_none {α : Type} (p : α → Bool) (l₁ l₂ : List α)
    (h : l₁.find? p = none) : (l₁ ++ l₂).find? p = l₂.find? p := by
  induction l₁ with
  | nil => rfl
  | cons a l ih =>
    cases hpa : p a with
    | true => simp [List.find?_cons_of_pos _ hpa] at h
    | false =>
      have hna : ¬ (p a = true) := by simp [hpa]
      rw [List.find?_cons_of_neg _ hna] at h
      rw [List.cons_append, List.find?_cons_of_neg _ hna]
      exact ih h

/-- Running `get_or_create` a second time with the same key on the updated
table returns the same row and leaves the table unchanged. -/
theorem getOrCreate_idem (l : List Technology) (k : List Char) :
    getOrCreate (getOrCreate l k).2 k = getOrCreate l k := by
  unfold getOrCreate
  cases hfind : l.find? (fun t => decide (t.short_name = k)) with
  | some t => simp [hfind]
  | none =>
    simp only [hfind]
    rw [find?_append_of_none _ _ _ hfind]
    simp [List.find?]

/-- The row returned by `get_or_create` is keyed by the requested key. -/
theorem getOrCreate_key (l : List Technology) (k : List Char) :
    (getOrCreate l k).1.short_name = k := by
  unfold getOrCreate
  cases hfind : l.find? (fun t => decide (t.short_name = k)) with
  | some t =>
    have := List.find?_some hfind
    simpa using this
  | none => simp

/-- C8: decomposing the same cipher-suite name twice creates no duplicate
Technology Registry rows: the second run's get-or-create lookups return the
existing entries, so the second run reproduces the first run's instance and
leaves the registry state exactly as after the first run. -/
theorem cs_decompose_idempotent (name : List Char) (st : RegistryState) :
    complete_cs_instance name (complete_cs_instance name st).2 =
      complete_cs_instance name st := by
  unfold complete_cs_instance
  simp only [getOrCreate_idem]

/-- A prefix test is preserved by underscore-to-space normalization when the
pattern contains neither a space nor an underscore. -/
theorem isPre_map_u2s (sep : List Char)
    (hsep : ∀ c ∈ sep, c ≠ ' ' ∧ c ≠ '_') :
    ∀ s : List Char, isPre sep (s.map u2s) = isPre sep s := by
  induction sep with
  | nil => intro s; rfl
  | cons a as ih =>
    intro s
    cases s with
    | nil => rfl
    | cons b bs =>
      have ha := hsep a (by simp)
      have hrec := ih (fun c hc => hsep c (by simp [hc])) bs
      by_cases hb : b = '_'
      · subst hb
        simp only [List.map_cons, isPre, u2s]
        simp [ha.1, ha.2]
      · simp only [List.map_cons, isPre, u2s, if_neg hb]
        split_ifs <;> simp [hrec]

/-- Substring occurrence is preserved by underscore-to-space normalization
when the pattern contains neither a space nor an underscore. -/
theorem occursIn_map_u2s (sep : List Char)
    (hsep : ∀ c ∈ sep, c ≠ ' ' ∧ c ≠ '_') :
    ∀ s : List Char, occursIn sep (s.map u2s) = occursIn sep s := by
  intro s
  induction s with
  | nil => rfl
  | cons c rest ih =>
    simp only [List.map_cons, occursIn]
    rw [ih]
    have := isPre_map_u2s sep hsep (c :: rest)
    simp only [List.map_cons] at this
    rw [this]

/-- Search by `findFirst` succeeds exactly when the pattern occurs. -/
theorem findFirst_isSome (sep : List Char) :
    ∀ s : List Char, (findFirst sep s).isSome = occursIn sep s := by
  intro s
  induction s with
  | nil =>
    simp only [findFirst, occursIn]
    split_ifs with h <;> simp [h]
  | cons c rest ih =>
    simp only [findFirst, occursIn]
    split_ifs with h
    · simp [h]
    · simp only [h, Bool.false_or]
      cases hf : findFirst sep rest with
      | some ab => cases ab with
        | mk a b => simp [hf] at ih ⊢; exact ih
      | none => simp [hf] at ih ⊢; exact ih

/-- An `isPre` match means the string starts with the pattern. -/
theorem isPre_decomp (sep : List Char) :
    ∀ s : List Char, isPre sep s = true → s = sep ++ s.drop sep.length := by
  induction sep with
  | nil => intro s _; rfl
  | cons a as ih =>
    intro s h
    cases s with
    | nil => simp [isPre] at h
    | cons b bs =>
      simp only [isPre] at h
      split_ifs at h with hab
      subst hab
      simpa using ih bs h

/-- A successful `findFirst` decomposes the string around the pattern. -/
theorem findFirst_decomp (sep : List Char) :
    ∀ s a b : List Char, findFirst sep s = some (a, b) → s = a ++ sep ++ b := by
  intro s
  induction s with
  | nil =>
    intro a b h
    simp only [findFirst] at h
    split_ifs at h with hp
    cases sep with
    | nil =>
      simp only [Option.some_inj, Prod.mk.injEq] at h
      rw [← h.1, ← h.2]
      rfl
    | cons x xs => simp [isPre] at hp
  | cons c rest ih =>
    intro a b h
    simp only [findFirst] at h
    split_ifs at h with hp
    · have hd := isPre_decomp sep (c :: rest) hp
      simp only [Option.some_inj, Prod.mk.injEq] at h
      rw [← h.1, ← h.2]
      simpa using hd
    · cases hf : findFirst sep rest with
      | some ab =>
        cases ab with
        | mk a' b' =>
          rw [hf] at h
          simp only [Option.some_inj, Prod.mk.injEq] at h
          have := ih a' b' hf
          rw [← h.1, ← h.2]
          simp [this]
      | none => rw [hf] at h; simp at h

/-- Occurrence in a suffix gives occurrence in the whole string. -/
theorem occursIn_append_right (sep x : List Char) :
    ∀ t : List Char, occursIn sep t = true → occursIn sep (x ++ t) = true := by
  induction x with
  | nil => intro t h; simpa using h
  | cons c cs ih =>
    intro t h
    simp only [List.cons_append, occursIn, Bool.or_eq_true]
    exact Or.inr (ih t h)

/-- When the pattern does not occur, Python `partition` returns the whole
string with two empty parts. -/
theorem pyPartition_of_not_occurs (sep s : List Char)
    (h : occursIn sep s = false) : pyPartition sep s = (s, [], []) := by
  unfold pyPartition
  cases hx : findFirst sep s with
  | none => rfl
  | some ab =>
    have hs := findFirst_isSome sep s
    rw [hx, h] at hs
    simp at hs

/-- C3 counterexample: the name `"TLS_RSA"` contains no `"WITH"`, yet the
decomposer's key-exchange token is `"RSA"`, not the empty string (Python
`partition` puts the whole remainder BEFORE the separator on a miss). -/
theorem cs_no_with_kex_nonempty_cex :
    occursIn withTok "TLS_RSA".toList = false ∧
    (decompose_name "TLS_RSA".toList).2.1 = "RSA".toList ∧
    (decompose_name "TLS_RSA".toList).2.1 ≠ ([] : List Char) := by
  refine ⟨by decide, by decide, by decide⟩

/-- C3 amended: for every name without the literal substring `"WITH"` the
decomposer does not reject the name; its key-exchange token is the whole
stripped remainder after the first space (in general non-empty), and the
encryption and hash tokens are empty, so the enc and hash foreign keys are
registry entries keyed by the empty short_name. -/
theorem cs_no_with_degenerate_tokens (name : List Char) (st : RegistryState)
    (h : occursIn withTok name = false) :
    decompose_name name =
      (pyStrip (pyPartition [' '] (normalizeName name)).1,
        pyStrip (pyPartition [' '] (normalizeName name)).2.2, [], []) ∧
    (complete_cs_instance name st).1.kex_algorithm.short_name =
      pyStrip (pyPartition [' '] (normalizeName name)).2.2 ∧
    (complete_cs_instance name st).1.enc_algorithm.short_name = [] ∧
    (complete_cs_instance name st).1.hash_algorithm.short_name = [] := by
  have hsep : ∀ c ∈ withTok, c ≠ ' ' ∧ c ≠ '_' := by decide
  have hn : occursIn withTok (normalizeName name) = false := by
    rw [normalizeName, occursIn_map_u2s withTok hsep]
    exact h
  have hrst :
      occursIn withTok (pyPartition [' '] (normalizeName name)).2.2 = false := by
    cases hf : findFirst [' '] (normalizeName name) with
    | none =>
      have hp : pyPartition [' '] (normalizeName name) =
          (normalizeName name, [], []) := by
        unfold pyPartition
        rw [hf]
      rw [hp]
      exact (by decide : occursIn withTok [] = false)
    | some ab =>
      obtain ⟨a, b⟩ := ab
      have hp : pyPartition [' '] (normalizeName name) = (a, [' '], b) := by
        unfold pyPartition
        rw [hf]
      rw [hp]
      show occursIn withTok b = false
      cases hb : occursIn withTok b with
      | false => rfl
      | true =>
        have hd := findFirst_decomp [' '] (normalizeName name) a b hf
        have hnn : occursIn withTok (normalizeName name) = true := by
          rw [hd]
          apply occursIn_append_right
          simp [occursIn, hb]
        rw [hn] at hnn
        exact absurd hnn (by simp)
  have htoks :
      decompose_name name =
        (pyStrip (pyPartition [' '] (normalizeName name)).1,
          pyStrip (pyPartition [' '] (normalizeName name)).2.2, [], []) := by
    simp only [decompose_name]
    rw [pyPartition_of_not_occurs withTok _ hrst]
    have hrp : pyRpartition [' '] ([] : List Char) = ([], [], []) := by decide
    simp [hrp, pyStrip]
  refine ⟨htoks, ?_, ?_, ?_⟩ <;>
    simp only [complete_cs_instance, htoks] <;>
    exact getOrCreate_key _ _

/-- A witness for the amended C3 statement at the concrete name
`"TLS_RSA"` and the empty registry. -/
theorem cs_no_with_degenerate_tokens_witness :
    decompose_name "TLS_RSA".toList =
      (pyStrip (pyPartition [' '] (normalizeName "TLS_RSA".toList)).1,
        pyStrip (pyPartition [' '] (normalizeName "TLS_RSA".toList)).2.2,
        [], []) ∧
    (complete_cs_instance "TLS_RSA".toList
          emptyRegistry).1.kex_algorithm.short_name =
      pyStrip (pyPartition [' '] (normalizeName "TLS_RSA".toList)).2.2 ∧
    (complete_cs_instance "TLS_RSA".toList
          emptyRegistry).1.enc_algorithm.short_name = [] ∧
    (complete_cs_instance "TLS_RSA".toList
          emptyRegistry).1.hash_algorithm.short_name = [] :=
  cs_no_with_degenerate_tokens "TLS_RSA".toList emptyRegistry (by decide)

/-- Splitting on the first space finds the explicit space after a
space-free prefix. -/
theorem findFirst_space (p : List Char) (R : List Char) (hp : ' ' ∉ p) :
    findFirst [' '] (p ++ ' ' :: R) = some (p, R) := by
  induction p with
  | nil => simp [findFirst, isPre]
  | cons c cs ih =>
    have hc : c ≠ ' ' := fun hc => hp (by simp [hc])
    have ihs := ih (fun hm => hp (by simp [hm]))
    simp only [List.cons_append, List.append_eq, findFirst, isPre]
    rw [if_neg (by simp [Ne.symm hc]), ihs]

/-- A string starts with itself followed by anything. -/
theorem isPre_append_self (s : List Char) :
    ∀ t : List Char, isPre s (s ++ t) = true := by
  induction s with
  | nil => intro t; rfl
  | cons a as ih => intro t; simp [isPre, ih t]

/-- Applying `findFirst` to a string starting with the pattern splits immediately. -/
theorem findFirst_self (sep : List Char) (hne : sep ≠ []) (t : List Char) :
    findFirst sep (sep ++ t) = some ([], t) := by
  cases sep with
  | nil => exact absurd rfl hne
  | cons a as =>
    simp only [List.cons_append, findFirst]
    rw [if_pos (by simpa using isPre_append_self (a :: as) t)]
    simp

/-- A pattern with no space that matches across a space-separated join must
match inside the left part. -/
theorem isPre_no_space_split (sep : List Char) (hs : ' ' ∉ sep) :
    ∀ x y : List Char, isPre sep (x ++ ' ' :: y) = true →
      isPre sep x = true := by
  induction sep with
  | nil => intro x y _; rfl
  | cons a as ih =>
    intro x y h
    cases x with
    | nil =>
      simp only [List.nil_append, isPre] at h
      split_ifs at h with ha
      exact absurd (by simp [ha]) hs
    | cons b bs =>
      simp only [List.cons_append, isPre] at h ⊢
      split_ifs at h ⊢ with hab
      exact ih (fun hm => hs (by simp [hm])) bs y h

/-- A head match is an occurrence. -/
theorem occursIn_of_isPre (sep s : List Char) (h : isPre sep s = true) :
    occursIn sep s = true := by
  cases s with
  | nil => exact h
  | cons c rest => simp [occursIn, h]

/-- Splitting on the first `sep` occurrence finds the explicit separator
after `k ++ " "` when `sep` has no space and does not occur in `k`. -/
theorem findFirst_sep_after_space (sep k t : List Char) (hne : sep ≠ [])
    (hs : ' ' ∉ sep) (hk : occursIn sep k = false) :
    findFirst sep (k ++ ' ' :: (sep ++ t)) = some (k ++ [' '], t) := by
  induction k with
  | nil =>
    simp only [List.nil_append, findFirst]
    rw [if_neg ?hno]
    case hno =>
      cases sep with
      | nil => exact absurd rfl hne
      | cons a as =>
        have ha : a ≠ ' ' := fun h => hs (by simp [h])
        simp [isPre, ha]
    rw [findFirst_self sep hne t]
  | cons c cs ih =>
    have hkc : occursIn sep cs = false := by
      simp only [occursIn, Bool.or_eq_false_iff] at hk
      exact hk.2
    simp only [List.cons_append, List.append_eq, findFirst]
    rw [if_neg ?hno2]
    case hno2 =>
      intro hpre
      have h1 : isPre sep ((c :: cs) ++ ' ' :: (sep ++ t)) = true := by
        simpa using hpre
      have h2 := isPre_no_space_split sep hs (c :: cs) (sep ++ t) h1
      have h3 := occursIn_of_isPre sep (c :: cs) h2
      rw [hk] at h3
      exact absurd h3 (by simp)
    rw [ih hkc]

/-- A space-free string contains no last-space split. -/
theorem findLast_none_of_no_space (h : List Char) (hh : ' ' ∉ h) :
    findLast [' '] h = none := by
  induction h with
  | nil => rfl
  | cons c cs ih =>
    have hc : c ≠ ' ' := fun hc => hh (by simp [hc])
    have ihs := ih (fun hm => hh (by simp [hm]))
    simp only [findLast, ihs, isPre]
    rw [if_neg (by simp [Ne.symm hc])]

/-- Splitting on the last space finds the explicit space before a
space-free suffix. -/
theorem findLast_space_last (x h : List Char) (hh : ' ' ∉ h) :
    findLast [' '] (x ++ ' ' :: h) = some (x, h) := by
  induction x with
  | nil =>
    simp only [List.nil_append, findLast, findLast_none_of_no_space h hh]
    simp [isPre]
  | cons c cs ih =>
    simp only [List.cons_append, List.append_eq, findLast, ih]

/-- The `dropWhile` function keeps a list whose elements all fail the predicate. -/
theorem dropWhile_eq_self_of_all {α : Type} (p : α → Bool) (l : List α)
    (h : ∀ c ∈ l, p c = false) : l.dropWhile p = l := by
  cases l with
  | nil => rfl
  | cons a as => simp [List.dropWhile_cons, h a (by simp)]

/-- Stripping a fully non-whitespace string is the identity. -/
theorem pyStrip_of_no_ws (s : List Char) (h : ∀ c ∈ s, pyWs c = false) :
    pyStrip s = s := by
  unfold pyStrip
  rw [dropWhile_eq_self_of_all pyWs s h,
    dropWhile_eq_self_of_all pyWs s.reverse
      (fun c hc => h c (List.mem_reverse.mp hc)),
    List.reverse_reverse]

/-- A trailing space is removed by `strip`. -/
theorem pyStrip_append_space (k : List Char) :
    pyStrip (k ++ [' ']) = pyStrip k := by
  unfold pyStrip
  rw [List.dropWhile_append]
  cases hd : (k.dropWhile pyWs).isEmpty with
  | true =>
    have hnil : k.dropWhile pyWs = [] := by
      cases hk : k.dropWhile pyWs with
      | nil => rfl
      | cons a as => rw [hk] at hd; simp at hd
    simp [hnil, pyWs]
  | false =>
    simp only [Bool.false_eq_true, if_false]
    rw [List.reverse_append]
    simp [List.dropWhile_cons, pyWs]

/-- A leading space is removed by `strip`. -/
theorem pyStrip_cons_space (e : List Char) :
    pyStrip (' ' :: e) = pyStrip e := by
  unfold pyStrip
  rw [List.dropWhile_cons]
  simp [pyWs]

/-- Reassembly of the four decomposed tokens as
`protocol + " " + kex + " WITH " + enc + " " + hash`. -/
def reassembleName (t : List Char × List Char × List Char × List Char) :
    List Char :=
  t.1 ++ " ".toList ++ t.2.1 ++ " WITH ".toList ++ t.2.2.1 ++ " ".toList ++
    t.2.2.2

/-- C2: for every well-formed name of the shape `"P_K WITH E H"` — after
underscore normalization: a whitespace-free protocol token, one space, a
kex token (no `"WITH"` inside, no surrounding whitespace), `" WITH "`, an
enc token (no surrounding whitespace), one space, a whitespace-free hash
token — the decomposer recovers exactly the four tokens, and reassembling
them reconstructs the normalized name. -/
theorem cs_name_roundtrip (name p k e h : List Char)
    (hn : normalizeName name =
      p ++ ' ' :: (k ++ ' ' :: (withTok ++ ' ' :: (e ++ ' ' :: h))))
    (hp : ∀ c ∈ p, pyWs c = false)
    (hk : occursIn withTok k = false)
    (hks : pyStrip k = k)
    (hes : pyStrip e = e)
    (hh : ∀ c ∈ h, pyWs c = false) :
    decompose_name name = (p, k, e, h) ∧
    reassembleName (decompose_name name) = normalizeName name := by
  have hsp : ' ' ∉ p := fun hm => by
    have := hp ' ' hm
    simp [pyWs] at this
  have hsh : ' ' ∉ h := fun hm => by
    have := hh ' ' hm
    simp [pyWs] at this
  have hf1 : findFirst [' '] (normalizeName name) =
      some (p, k ++ ' ' :: (withTok ++ ' ' :: (e ++ ' ' :: h))) := by
    rw [hn]
    exact findFirst_space p _ hsp
  have hp1 : pyPartition [' '] (normalizeName name) =
      (p, [' '], k ++ ' ' :: (withTok ++ ' ' :: (e ++ ' ' :: h))) := by
    unfold pyPartition
    rw [hf1]
  have hf2 : findFirst withTok
      (k ++ ' ' :: (withTok ++ ' ' :: (e ++ ' ' :: h))) =
      some (k ++ [' '], ' ' :: (e ++ ' ' :: h)) := by
    have := findFirst_sep_after_space withTok k (' ' :: (e ++ ' ' :: h))
      (by decide) (by decide) hk
    simpa using this
  have hp2 : pyPartition withTok
      (k ++ ' ' :: (withTok ++ ' ' :: (e ++ ' ' :: h))) =
      (k ++ [' '], withTok, ' ' :: (e ++ ' ' :: h)) := by
    unfold pyPartition
    rw [hf2]
  have hf3 : findLast [' '] (' ' :: (e ++ ' ' :: h)) =
      some (' ' :: e, h) := by
    have := findLast_space_last (' ' :: e) h hsh
    simpa using this
  have hp3 : pyRpartition [' '] (' ' :: (e ++ ' ' :: h)) =
      (' ' :: e, [' '], h) := by
    unfold pyRpartition
    rw [hf3]
  have hdec : decompose_name name = (p, k, e, h) := by
    simp only [decompose_name, hp1, hp2, hp3]
    rw [pyStrip_append_space, pyStrip_cons_space, hks, hes,
      pyStrip_of_no_ws p hp, pyStrip_of_no_ws h hh]
  refine ⟨hdec, ?_⟩
  rw [hdec, hn]
  simp [reassembleName, withTok]

/-- Witness for C2 at the concrete name
`"TLS_ECDHE_RSA WITH AES_128_GCM SHA256"`. -/
theorem cs_name_roundtrip_witness :
    decompose_name exampleName =
      ("TLS".toList, "ECDHE RSA".toList, "AES 128 GCM".toList,
        "SHA256".toList) ∧
    reassembleName (decompose_name exampleName) = normalizeName exampleName :=
  cs_name_roundtrip exampleName "TLS".toList "ECDHE RSA".toList
    "AES 128 GCM".toList "SHA256".toList (by decide) (by decide) (by decide)
    (by decide) (by decide) (by decide)

/-- The claim's reading of the year pattern: as `yearAt`, but additionally
requiring the 4-digit year to be word-boundary delimited on its right
(next character absent or not a word character). -/
def yearAtClaim (prev : Option Char) (s : List Char) : Option Nat :=
  monthList.findSome? fun m =>
    if isPre m s && boundaryBefore prev then
      match s.drop m.length with
      | ' ' :: d1 :: d2 :: d3 :: d4 :: rest =>
        if d1.isDigit && d2.isDigit && d3.isDigit && d4.isDigit &&
            (match rest with
              | [] => true
              | c :: _ => !wordChar c) then
          some (yearFrom d1 d2 d3 d4)
        else none
      | _ => none
    else none

/-- Left-to-right search with the claim's right-delimited year pattern. -/
def yearSearchClaim : Option Char → List Char → Option Nat
  | _, [] => none
  | prev, c :: rest =>
    match yearAtClaim prev (c :: rest) with
    | some y => some y
    | none => yearSearchClaim (some c) rest

/-- C6 counterexample: on a page whose first preformatted block reads
`"May 12345"`, the code's year extraction returns 1234 (the first four
digits after the month and space), although no word-boundary-delimited
4-digit year follows any month name there — the claimed reading finds no
match at all. -/
theorem rfc_year_boundary_cex :
    get_year ⟨200, [], [], ["May 12345".toList]⟩ = some 1234 ∧
    yearSearchClaim none (joinSpace ["May 12345".toList]) = none := by
  refine ⟨by decide, by decide⟩

/-- The character before position `i` of `d`, when scanning starts after
`prev`. -/
def prevAux (prev : Option Char) (d : List Char) : Nat → Option Char
  | 0 => prev
  | i + 1 => d[i]?

/-- The first position of `d` at which the month/year pattern matches. -/
def firstYearIndex (prev : Option Char) (d : List Char) : Option Nat :=
  (List.range d.length).find? fun i =>
    (yearAt (prevAux prev d i) (d.drop i)).isSome

/-- The specification-style description of year extraction (as amended):
take the match at the FIRST position where a boundary-preceded month name
is followed by a space and four digits, with no requirement on what
follows the digits. -/
def yearSpecAmended (d : List Char) : Option Nat :=
  match firstYearIndex none d with
  | some i => yearAt (prevAux none d i) (d.drop i)
  | none => none

/-- Shifting the previous-character function across a cons cell. -/
theorem prevAux_cons (prev : Option Char) (c : Char) (rest : List Char) :
    ∀ i : Nat, prevAux prev (c :: rest) (i + 1) = prevAux (some c) rest i := by
  intro i
  cases i with
  | zero => simp [prevAux]
  | succ j => simp [prevAux, List.getElem?_cons_succ]

/-- The left-to-right scan returns exactly the match at the first matching
position. -/
theorem yearSearch_eq_firstIndex (d : List Char) : ∀ prev : Option Char,
    yearSearch prev d =
      match firstYearIndex prev d with
      | some i => yearAt (prevAux prev d i) (d.drop i)
      | none => none := by
  induction d with
  | nil => intro prev; rfl
  | cons c rest ih =>
    intro prev
    unfold firstYearIndex
    simp only [List.length_cons, List.range_succ_eq_map]
    cases hy : yearAt prev (c :: rest) with
    | some y =>
      rw [List.find?_cons]
      have h0 : (yearAt (prevAux prev (c :: rest) 0)
          ((c :: rest).drop 0)).isSome = true := by
        simp [prevAux, hy]
      simp only [List.drop_zero] at h0 ⊢
      simp only [h0]
      simp [yearSearch, hy, prevAux]
    | none =>
      rw [List.find?_cons]
      have h0 : (yearAt (prevAux prev (c :: rest) 0)
          ((c :: rest).drop 0)).isSome = false := by
        simp [prevAux, hy]
      simp only [List.drop_zero] at h0 ⊢
      simp only [h0]
      rw [List.find?_map]
      have hfeq : ((fun i => (yearAt (prevAux prev (c :: rest) i)
            ((c :: rest).drop i)).isSome) ∘ Nat.succ) =
          (fun i =>
            (yearAt (prevAux (some c) rest i) (rest.drop i)).isSome) := by
        funext i
        simp only [Function.comp]
        rw [prevAux_cons, List.drop_succ_cons]
      rw [hfeq]
      have hL : yearSearch prev (c :: rest) = yearSearch (some c) rest := by
        simp [yearSearch, hy]
      rw [hL, ih (some c)]
      unfold firstYearIndex
      cases hfind : (List.range rest.length).find?
          (fun i =>
            (yearAt (prevAux (some c) rest i) (rest.drop i)).isSome) with
      | none => simp
      | some i =>
        simp only [Option.map_some']
        rw [prevAux_cons, List.drop_succ_cons]

/-- C6 amended: year extraction concatenates the first preformatted
block's text and returns the year of the match at the first position where
a word-boundary-preceded full month name is followed by a space and four
digits — the four digits being the year, with no word-boundary requirement
after them. -/
theorem rfc_year_first_match_spec (page : RfcPage) :
    get_year page = yearSpecAmended (joinSpace page.pre1_texts) := by
  unfold get_year yearSpecAmended
  exact yearSearch_eq_firstIndex (joinSpace page.pre1_texts) none
